import Mathlib

/-!
Verification of the fetch-response decoder in src/src/protocol/zfetch.rs
(kafka-rust), against its specification.

Shallow embedding conventions:
  * byte buffers are lists of natural numbers (each element a byte value);
  * borrowed slices of the source become plain list values, and the
    ownership-only fields (raw_data on FetchResponse and MessageSet)
    are dropped, since they carry no observable data;
  * machine integers are Int values obtained by two-complement decoding of
    big-endian bytes; fallible code returns Except;
  * the byte cursor (zreader.rs), the error table and the two compression
    codecs are not part of src/ and are modelled from the spec: the codecs
    become explicit function parameters (a Codecs record), and the panic on
    an unknown codec in MessageSet::from_slice is modelled as the distinct
    terminal outcome Error.Panic;
  * the recursion of MessageSet::from_slice through decompression is not
    structurally bounded in the source, so the embedding carries a fuel
    argument that is spent once per decoded record and once per
    decompression step; exhaustion yields the artificial Error.OutOfFuel,
    which no theorem below relies on.
-/

/-- Errors surfaced by the decoder.  UnexpectedEOF, InvalidData and the
codec errors follow the spec of the external error module; Protocol c is
the partition-level error mapped from a non-zero 16-bit code; Panic models
the process abort in the unknown-codec arm of MessageSet::from_slice;
OutOfFuel is an artifact of the fuel-bounded embedding. -/
inductive Error where
  | UnexpectedEOF : Error
  | InvalidData : Error
  | Decompression : Error
  | Protocol : Int → Error
  | Panic : Error
  | OutOfFuel : Error
deriving DecidableEq, Repr

-- Modelled from the spec: the compression module is not under src/.
-- The low two bits of a record attr byte select the codec:
-- 0 = none, 1 = GZIP, 2 = Snappy.
namespace Compression

def NONE : Int := 0

def GZIP : Int := 1

def SNAPPY : Int := 2

end Compression

/-- Modelled from the spec: the GZIP and Snappy codecs are external
black boxes of shape byte-sequence to owned byte-sequence or error; the
decoder is parametric in them. -/
structure Codecs where
  gzip : List Nat → Except Error (List Nat)
  snappy : List Nat → Except Error (List Nat)

/-- Byte buffers: lists of byte values. -/
abbrev Bytes := List Nat

/-- Two-complement reading of a k-byte unsigned accumulation: values with
the top bit set are shifted down by the modulus M. -/
def toSigned (M : Nat) (n : Nat) : Int :=
  if 2 * n < M then (n : Int) else (n : Int) - (M : Int)

/-- Big-endian accumulation of a byte list into a natural number. -/
def beVal (l : Bytes) : Nat :=
  l.foldl (fun a b => a * 256 + b) 0

/-- Big-endian byte expansion of a natural number into exactly k bytes
(most significant first, truncating above 256 ^ k). -/
def natToBE : Nat → Nat → Bytes
  | 0, _ => []
  | k + 1, m => natToBE k (m / 256) ++ [m % 256]

/-- Encode an integer as k big-endian two-complement bytes. -/
def encBE (k : Nat) (v : Int) : Bytes :=
  natToBE k (v.emod ((256 : Int) ^ k)).toNat

/-- v is representable as a k-byte two-complement integer. -/
def fitsBE (k : Nat) (v : Int) : Prop :=
  -((256 : Int) ^ k) ≤ 2 * v ∧ 2 * v < (256 : Int) ^ k

instance (k : Nat) (v : Int) : Decidable (fitsBE k v) := by
  unfold fitsBE; infer_instance

-- Modelled from the spec: the byte cursor of zreader.rs (not under src/).
-- The cursor state is the list of not-yet-consumed bytes; every read returns
-- the decoded value together with the remaining bytes, or fails with
-- UnexpectedEOF when fewer bytes remain than required.
namespace ZReader

/-- Read k big-endian two-complement bytes as an integer. -/
def readIntBE (k : Nat) (l : Bytes) : Except Error (Int × Bytes) :=
  if k ≤ l.length then .ok (toSigned (256 ^ k) (beVal (l.take k)), l.drop k)
  else .error .UnexpectedEOF

def read_i8 (l : Bytes) : Except Error (Int × Bytes) := readIntBE 1 l

def read_i16 (l : Bytes) : Except Error (Int × Bytes) := readIntBE 2 l

def read_i32 (l : Bytes) : Except Error (Int × Bytes) := readIntBE 4 l

def read_i64 (l : Bytes) : Except Error (Int × Bytes) := readIntBE 8 l

/-- Read an i32 array length; a negative count is InvalidData. -/
def read_array_len (l : Bytes) : Except Error (Nat × Bytes) :=
  match read_i32 l with
  | .error e => .error e
  | .ok (n, r) => if n < 0 then .error .InvalidData else .ok (n.toNat, r)

/-- Read an i32 length-prefixed byte block; a negative length is the wire
convention for null and yields the empty slice. -/
def read_bytes (l : Bytes) : Except Error (Bytes × Bytes) :=
  match read_i32 l with
  | .error e => .error e
  | .ok (n, r) =>
    if n < 0 then .ok ([], r)
    else if n.toNat ≤ r.length then .ok (r.take n.toNat, r.drop n.toNat)
    else .error .UnexpectedEOF

/-- Structural UTF-8 validity of a byte list: ASCII bytes stand alone,
lead bytes carry the right number of continuation bytes. -/
def utf8Valid : Bytes → Bool
  | [] => true
  | b :: rest =>
    if b < 0x80 then utf8Valid rest
    else if 0xC2 ≤ b ∧ b ≤ 0xDF then
      match rest with
      | c1 :: r => decide (0x80 ≤ c1 ∧ c1 < 0xC0) && utf8Valid r
      | [] => false
    else if 0xE0 ≤ b ∧ b ≤ 0xEF then
      match rest with
      | c1 :: c2 :: r =>
        decide (0x80 ≤ c1 ∧ c1 < 0xC0) && decide (0x80 ≤ c2 ∧ c2 < 0xC0) &&
          utf8Valid r
      | _ => false
    else if 0xF0 ≤ b ∧ b ≤ 0xF4 then
      match rest with
      | c1 :: c2 :: c3 :: r =>
        decide (0x80 ≤ c1 ∧ c1 < 0xC0) && decide (0x80 ≤ c2 ∧ c2 < 0xC0) &&
          decide (0x80 ≤ c3 ∧ c3 < 0xC0) && utf8Valid r
      | _ => false
    else false

/-- Read an i16 length-prefixed UTF-8 string (kept as its byte list);
a negative length yields the empty string, invalid UTF-8 is InvalidData. -/
def read_str (l : Bytes) : Except Error (Bytes × Bytes) :=
  match read_i16 l with
  | .error e => .error e
  | .ok (n, r) =>
    if n < 0 then .ok ([], r)
    else if n.toNat ≤ r.length then
      if utf8Valid (r.take n.toNat) then .ok (r.take n.toNat, r.drop n.toNat)
      else .error .InvalidData
    else .error .UnexpectedEOF

/-- True iff the cursor has consumed its whole input. -/
def is_empty (l : Bytes) : Bool := l.isEmpty

end ZReader

/-- Length-prefixed byte-block encoder (the inverse wire form consumed by
ZReader.read_bytes for non-null blocks). -/
def encBytes (b : Bytes) : Bytes := encBE 4 (b.length : Int) ++ b

/-- Length-prefixed string encoder (the inverse wire form consumed by
ZReader.read_str). -/
def encStr (s : Bytes) : Bytes := encBE 2 (s.length : Int) ++ s

/-- A fetched message surfaced to the consumer: offset plus key and value
slices (zfetch.rs, struct Message). -/
structure Message where
  offset : Int
  key : Bytes
  value : Bytes
deriving DecidableEq, Repr

/-- A decoded message set (zfetch.rs, struct MessageSet).  The raw_data
field of the source only keeps the backing buffer alive and carries no
observable data, so the embedding keeps just the message list. -/
structure MessageSet where
  messages : List Message
deriving DecidableEq, Repr

/-- One on-wire message record exactly as in the protocol
(zfetch.rs, struct ProtocolMessage). -/
structure ProtocolMessage where
  crc : Int
  magic : Int
  attr : Int
  key : Bytes
  value : Bytes
deriving DecidableEq, Repr

/-- Decidable equality for Except values with decidable components. -/
instance {ε α : Type} [DecidableEq ε] [DecidableEq α] :
    DecidableEq (Except ε α) := fun a b =>
  match a, b with
  | .error e1, .error e2 =>
    if h : e1 = e2 then .isTrue (by rw [h])
    else .isFalse (fun hh => by cases hh; exact h rfl)
  | .error _, .ok _ => .isFalse (fun hh => by cases hh)
  | .ok _, .error _ => .isFalse (fun hh => by cases hh)
  | .ok x1, .ok x2 =>
    if h : x1 = x2 then .isTrue (by rw [h])
    else .isFalse (fun hh => by cases hh; exact h rfl)

/-- The successful payload of one partition (zfetch.rs, struct
PartitionData). -/
structure PartitionData where
  highwatermark_offset : Int
  message_set : MessageSet
deriving DecidableEq, Repr

/-- Per-partition outcome: the partition id plus either an error or the
data (zfetch.rs, struct PartitionFetchResponse). -/
structure PartitionFetchResponse where
  partition : Int
  data : Except Error PartitionData
deriving DecidableEq, Repr

/-- Per-topic part of a reply: name and partitions (zfetch.rs, struct
TopicFetchResponse).  The topic name is kept as its UTF-8 byte list. -/
structure TopicFetchResponse where
  topic : Bytes
  partitions : List PartitionFetchResponse
deriving DecidableEq, Repr

/-- A whole decoded fetch reply (zfetch.rs, struct FetchResponse); the
ownership-only raw_data field is dropped. -/
structure FetchResponse where
  correlation_id : Int
  topics : List TopicFetchResponse
deriving DecidableEq, Repr

/-- Modelled from the spec: Error::from_protocol_error of the external
error module maps the 16-bit on-wire code to an optional error; code 0
means success, any other code is a partition-level protocol error. -/
def fromProtocolError (code : Int) : Option Error :=
  if code = 0 then none else some (.Protocol code)

namespace ProtocolMessage

/-- ProtocolMessage::from_slice: crc, magic, attr, key, value read in
order from an isolated record body.  The debug-only emptiness assertion of
the source is not a failure path and is not modelled. -/
def from_slice (raw : Bytes) : Except Error ProtocolMessage :=
  match ZReader.read_i32 raw with
  | .error e => .error e
  | .ok (msg_crc, r) =>
    match ZReader.read_i8 r with
    | .error e => .error e
    | .ok (msg_magic, r) =>
      match ZReader.read_i8 r with
      | .error e => .error e
      | .ok (msg_attr, r) =>
        match ZReader.read_bytes r with
        | .error e => .error e
        | .ok (msg_key, r) =>
          match ZReader.read_bytes r with
          | .error e => .error e
          | .ok (msg_val, _) =>
            .ok ⟨msg_crc, msg_magic, msg_attr, msg_key, msg_val⟩

end ProtocolMessage

namespace MessageSet

/-- MessageSet::next_message: an i64 offset, a length-prefixed body, and
the record decoded from that body; also returns the advanced cursor. -/
def next_message (r : Bytes) : Except Error (Int × ProtocolMessage × Bytes) :=
  match ZReader.read_i64 r with
  | .error e => .error e
  | .ok (offset, r1) =>
    match ZReader.read_bytes r1 with
    | .error e => .error e
    | .ok (msg_data, r2) =>
      match ProtocolMessage.from_slice msg_data with
      | .error e => .error e
      | .ok pm => .ok (offset, pm, r2)

/-- The record loop of MessageSet::from_slice.  fuel bounds the number of
decoded records and the decompression depth (the recursion of the source
through from_vec is not structurally bounded); each loop step spends one
unit.  An UnexpectedEOF from next_message terminates the loop normally
with the messages accumulated so far; a record with codec bits 1 or 2 is
decompressed and the loop restarts on the fresh buffer with an empty
accumulator, its result returned for the whole slice; codec bits 3 are
the panic arm of the source. -/
def msLoop (cz : Codecs) : Nat → List Message → Bytes → Except Error (List Message)
  | 0, msgs, r => if ZReader.is_empty r then .ok msgs else .error .OutOfFuel
  | fuel + 1, msgs, r =>
    if ZReader.is_empty r then .ok msgs
    else
      match next_message r with
      | .error .UnexpectedEOF => .ok msgs
      | .error e => .error e
      | .ok (offset, pm, r2) =>
        if pm.attr.emod 4 = Compression.NONE then
          msLoop cz fuel (msgs ++ [⟨offset, pm.key, pm.value⟩]) r2
        else if pm.attr.emod 4 = Compression.GZIP then
          match cz.gzip pm.value with
          | .error e => .error e
          | .ok v => msLoop cz fuel [] v
        else if pm.attr.emod 4 = Compression.SNAPPY then
          match cz.snappy pm.value with
          | .error e => .error e
          | .ok v => msLoop cz fuel [] v
        else .error .Panic

/-- MessageSet::from_slice on a borrowed buffer. -/
def from_slice (cz : Codecs) (fuel : Nat) (raw : Bytes) : Except Error MessageSet :=
  match msLoop cz fuel [] raw with
  | .error e => .error e
  | .ok msgs => .ok ⟨msgs⟩

/-- MessageSet::from_vec takes ownership of the buffer and decodes it via
from_slice; the messages are identical, only ownership differs, so the
embedding coincides with from_slice. -/
def from_vec (cz : Codecs) (fuel : Nat) (data : Bytes) : Except Error MessageSet :=
  from_slice cz fuel data

end MessageSet

namespace PartitionFetchResponse

/-- PartitionFetchResponse::read: partition id, error code, high
watermark and message-set body are always read, even for a non-zero error
code, to keep the cursor aligned; the outcome stores the mapped error or
the data. -/
def read (cz : Codecs) (fuel : Nat) (r : Bytes) :
    Except Error (PartitionFetchResponse × Bytes) :=
  match ZReader.read_i32 r with
  | .error e => .error e
  | .ok (partition, r1) =>
    match ZReader.read_i16 r1 with
    | .error e => .error e
    | .ok (code, r2) =>
      match ZReader.read_i64 r2 with
      | .error e => .error e
      | .ok (highwatermark, r3) =>
        match ZReader.read_bytes r3 with
        | .error e => .error e
        | .ok (msbytes, r4) =>
          match MessageSet.from_slice cz fuel msbytes with
          | .error e => .error e
          | .ok msgset =>
            .ok (⟨partition,
                  match fromProtocolError code with
                  | some e => .error e
                  | none => .ok ⟨highwatermark, msgset⟩⟩, r4)

end PartitionFetchResponse

/-- The loop body of the array_of! macro: parse exactly n elements in
sequence. -/
def readArrayOf (p : Bytes → Except Error (α × Bytes)) :
    Nat → Bytes → Except Error (List α × Bytes)
  | 0, r => .ok ([], r)
  | n + 1, r =>
    match p r with
    | .error e => .error e
    | .ok (x, r1) =>
      match readArrayOf p n r1 with
      | .error e => .error e
      | .ok (xs, r2) => .ok (x :: xs, r2)

/-- The array_of! macro: an i32 element count (negative is InvalidData)
followed by that many element bodies. -/
def array_of (p : Bytes → Except Error (α × Bytes)) (r : Bytes) :
    Except Error (List α × Bytes) :=
  match ZReader.read_array_len r with
  | .error e => .error e
  | .ok (n, r1) => readArrayOf p n r1

namespace TopicFetchResponse

/-- TopicFetchResponse::read: topic name then the partitions array. -/
def read (cz : Codecs) (fuel : Nat) (r : Bytes) :
    Except Error (TopicFetchResponse × Bytes) :=
  match ZReader.read_str r with
  | .error e => .error e
  | .ok (name, r1) =>
    match array_of (PartitionFetchResponse.read cz fuel) r1 with
    | .error e => .error e
    | .ok (partitions, r2) => .ok (⟨name, partitions⟩, r2)

end TopicFetchResponse

namespace FetchResponse

/-- The parsing core of FetchResponse::from_vec: correlation id then the
topics array; also exposes the unconsumed trailing bytes, which the
source ignores. -/
def parseFetch (cz : Codecs) (fuel : Nat) (response : Bytes) :
    Except Error (FetchResponse × Bytes) :=
  match ZReader.read_i32 response with
  | .error e => .error e
  | .ok (correlation_id, r1) =>
    match array_of (TopicFetchResponse.read cz fuel) r1 with
    | .error e => .error e
    | .ok (topics, rest) => .ok (⟨correlation_id, topics⟩, rest)

end FetchResponse

namespace FetchResponse

/-- FetchResponse::from_vec: decode correlation id and topics from the
front of the buffer; unconsumed trailing bytes are ignored. -/
def from_vec (cz : Codecs) (fuel : Nat) (response : Bytes) :
    Except Error FetchResponse :=
  match parseFetch cz fuel response with
  | .error e => .error e
  | .ok (resp, _) => .ok resp

end FetchResponse

/-- One item of the flat partition iterator (zfetch.rs, struct Response):
topic name, partition id, and the borrowed outcome. -/
structure Response where
  topic : Bytes
  partition : Int
  data : Except Error PartitionData
deriving DecidableEq, Repr

/-- The state of the flat partition iterator (zfetch.rs, struct
ResponseIter): the remaining replies, the remaining topics of the current
reply, the current topic name, and the remaining partitions of the
current topic.  The exhausted-iterator and absent-iterator states of the
source (None against Some of a spent Iter) are observationally identical
through Iterator::next and are both modelled by the empty list. -/
structure ResponseIter where
  responses : List FetchResponse
  topics : List TopicFetchResponse
  curr_topic : Bytes
  partitions : List PartitionFetchResponse
deriving DecidableEq, Repr

namespace ResponseIter

/-- The recursion of ResponseIter::next over the four fields: emit the
next partition if any, else advance to the next topic, else to the next
reply (resetting the current topic name to the empty string), else stop.
Returns the emitted item with the successor state. -/
def nextCore : List FetchResponse → List TopicFetchResponse → Bytes →
    List PartitionFetchResponse → Option Response × ResponseIter
  | rs, ts, ct, p :: ps =>
    (some ⟨ct, p.partition, p.data⟩, ⟨rs, ts, ct, ps⟩)
  | rs, t :: ts, _, [] => nextCore rs ts t.topic t.partitions
  | r :: rs, [], _, [] => nextCore rs r.topics [] []
  | [], [], ct, [] => (none, ⟨[], [], ct, []⟩)
termination_by rs ts _ _ => (rs.length, ts.length)

/-- Iterator::next for ResponseIter. -/
def next (s : ResponseIter) : Option Response × ResponseIter :=
  nextCore s.responses s.topics s.curr_topic s.partitions

/-- The full trace of the iterator: the recursion of next, unfolded until
exhaustion, collecting every emitted item in order. -/
def emitAllCore : List FetchResponse → List TopicFetchResponse → Bytes →
    List PartitionFetchResponse → List Response
  | rs, ts, ct, p :: ps =>
    ⟨ct, p.partition, p.data⟩ :: emitAllCore rs ts ct ps
  | rs, t :: ts, _, [] => emitAllCore rs ts t.topic t.partitions
  | r :: rs, [], _, [] => emitAllCore rs r.topics [] []
  | [], [], _, [] => []
termination_by rs ts _ ps => (rs.length, ts.length, ps.length)

/-- All items the iterator yields from a given state, in order. -/
def emitAll (s : ResponseIter) : List Response :=
  emitAllCore s.responses s.topics s.curr_topic s.partitions

end ResponseIter

/-- iter_responses: build the iterator state, pre-advancing to the first
reply and, within it, to the first topic, exactly as the source does. -/
def iter_responses (responses : List FetchResponse) : ResponseIter :=
  match responses with
  | [] => ⟨[], [], [], []⟩
  | r :: rest =>
    match r.topics with
    | [] => ⟨rest, [], [], []⟩
    | t :: ts => ⟨rest, ts, t.topic, t.partitions⟩

/-- Follows the words of the spec, for comparison with the iterator: for
each partition of each topic of one reply, in order, one record. -/
def topicsFlat : List TopicFetchResponse → List Response
  | [] => []
  | t :: ts =>
    t.partitions.map (fun p => ⟨t.topic, p.partition, p.data⟩) ++ topicsFlat ts

/-- Follows the words of the spec: the left-to-right concatenation, for
each reply in input order, of its topic and partition records in on-wire
order. -/
def flatResponses : List FetchResponse → List Response
  | [] => []
  | r :: rs => topicsFlat r.topics ++ flatResponses rs

/-! ### List prefix helpers -/

theorem take_append_of_le {α : Type} :
    ∀ (n : Nat) (l e : List α), n ≤ l.length → (l ++ e).take n = l.take n := by
  intro n l e h
  induction l generalizing n with
  | nil => simp at h; simp [h]
  | cons a l ih =>
    cases n with
    | zero => simp
    | succ m =>
      simp only [List.cons_append, List.take_succ_cons]
      rw [ih m (by simpa using h)]

theorem drop_append_of_le {α : Type} :
    ∀ (n : Nat) (l e : List α), n ≤ l.length →
      (l ++ e).drop n = l.drop n ++ e := by
  intro n l e h
  induction l generalizing n with
  | nil => simp at h; simp [h]
  | cons a l ih =>
    cases n with
    | zero => simp
    | succ m =>
      simp only [List.cons_append, List.drop_succ_cons]
      exact ih m (by simpa using h)

/-! ### Big-endian encoding lemmas -/

theorem natToBE_length : ∀ (k m : Nat), (natToBE k m).length = k := by
  intro k
  induction k with
  | zero => intro m; rfl
  | succ n ih => intro m; simp [natToBE, ih]

theorem foldl_natToBE :
    ∀ (k m a : Nat),
      List.foldl (fun a b => a * 256 + b) a (natToBE k m) =
        a * 256 ^ k + m % 256 ^ k := by
  intro k
  induction k with
  | zero => intro m a; simp [natToBE, Nat.mod_one]
  | succ n ih =>
    intro m a
    simp only [natToBE, List.foldl_append, List.foldl_cons, List.foldl_nil, ih]
    have hB : 0 < 256 ^ n := Nat.pos_pow_of_pos n (by norm_num)
    have hm2 : m = 256 * (m / 256 % 256 ^ n) + m % 256 +
        (256 * 256 ^ n) * (m / 256 / 256 ^ n) := by
      calc m = 256 * (m / 256) + m % 256 := by omega
        _ = 256 * (256 ^ n * (m / 256 / 256 ^ n) + m / 256 % 256 ^ n) +
              m % 256 := by rw [Nat.div_add_mod (m / 256) (256 ^ n)]
        _ = 256 * (m / 256 % 256 ^ n) + m % 256 +
              (256 * 256 ^ n) * (m / 256 / 256 ^ n) := by ring
    have hx : 256 * (m / 256 % 256 ^ n) + m % 256 < 256 * 256 ^ n := by
      have h1 : m / 256 % 256 ^ n < 256 ^ n := Nat.mod_lt _ hB
      have h2 : m % 256 < 256 := Nat.mod_lt _ (by norm_num)
      nlinarith
    have h1 : m % 256 ^ (n + 1) = 256 * (m / 256 % 256 ^ n) + m % 256 := by
      have hp : (256 : Nat) ^ (n + 1) = 256 * 256 ^ n := by ring
      rw [hp]
      conv_lhs => rw [hm2]
      rw [Nat.add_mul_mod_self_left]
      exact Nat.mod_eq_of_lt hx
    rw [h1]; ring


theorem beVal_natToBE (k m : Nat) : beVal (natToBE k m) = m % 256 ^ k := by
  have h := foldl_natToBE k m 0
  simpa [beVal] using h

theorem encBE_length (k : Nat) (v : Int) : (encBE k v).length = k := by
  simp [encBE, natToBE_length]

theorem emod_toNat_lt (k : Nat) (v : Int) :
    (v.emod ((256 : Int) ^ k)).toNat < 256 ^ k := by
  have hpos : (0 : Int) < (256 : Int) ^ k := by positivity
  have h1 : 0 ≤ v.emod ((256 : Int) ^ k) := Int.emod_nonneg v (by positivity)
  have h2 : v.emod ((256 : Int) ^ k) < (256 : Int) ^ k :=
    Int.emod_lt_of_pos v hpos
  have hcast : ((256 : Int) ^ k) = ((256 ^ k : Nat) : Int) := by
    push_cast; ring
  omega

theorem readIntBE_encBE (k : Nat) (v : Int) (rest : Bytes)
    (h : fitsBE k v) :
    ZReader.readIntBE k (encBE k v ++ rest) = .ok (v, rest) := by
  have hlen : (encBE k v).length = k := encBE_length k v
  have hle : k ≤ (encBE k v ++ rest).length := by
    simp [List.length_append, hlen]
  have htake : (encBE k v ++ rest).take k = encBE k v := by
    rw [take_append_of_le k _ rest (by omega)]
    exact List.take_of_length_le (by omega)
  have hdrop : (encBE k v ++ rest).drop k = rest := by
    rw [drop_append_of_le k _ rest (by omega)]
    rw [List.drop_of_length_le (by omega)]
    simp
  unfold ZReader.readIntBE
  rw [if_pos hle, htake, hdrop]
  have hval : beVal (encBE k v) = (v.emod ((256 : Int) ^ k)).toNat := by
    rw [encBE, beVal_natToBE]
    exact Nat.mod_eq_of_lt (emod_toNat_lt k v)
  rw [hval]
  have hck : ((256 ^ k : Nat) : Int) = (256 : Int) ^ k := by push_cast; ring
  obtain ⟨hlo, hhi⟩ := h
  have hpos : (0 : Int) < (256 : Int) ^ k := by positivity
  have h1 : 0 ≤ v.emod ((256 : Int) ^ k) := Int.emod_nonneg v (by positivity)
  have h2 : v.emod ((256 : Int) ^ k) < (256 : Int) ^ k :=
    Int.emod_lt_of_pos v hpos
  have hts : toSigned (256 ^ k) ((v.emod ((256 : Int) ^ k)).toNat) = v := by
    by_cases hv : 0 ≤ v
    · have he : v.emod ((256 : Int) ^ k) = v :=
        Int.emod_eq_of_lt hv (by omega)
      unfold toSigned
      rw [he, if_pos (by omega)]
      omega
    · push_neg at hv
      have he : v.emod ((256 : Int) ^ k) = v + (256 : Int) ^ k := by
        have ha : (v + (256 : Int) ^ k).emod ((256 : Int) ^ k) =
            v.emod ((256 : Int) ^ k) := by
          have hm := Int.add_mul_emod_self_left v ((256 : Int) ^ k) 1
          simp only [mul_one] at hm
          exact hm
        have hb : (v + (256 : Int) ^ k).emod ((256 : Int) ^ k) =
            v + (256 : Int) ^ k :=
          Int.emod_eq_of_lt (by omega) (by omega)
        omega
      unfold toSigned
      rw [he, if_neg (by omega)]
      omega
  rw [hts]

theorem fitsBE_ofNat (k : Nat) (n : Nat) (h : 2 * n < 256 ^ k) :
    fitsBE k (n : Int) := by
  constructor
  · have : (0 : Int) ≤ (n : Int) := Int.ofNat_nonneg n
    have hpos : (0 : Int) < (256 : Int) ^ k := by positivity
    omega
  · have hck : ((256 ^ k : Nat) : Int) = (256 : Int) ^ k := by push_cast; ring
    omega

theorem read_bytes_encBytes (b : Bytes) (rest : Bytes)
    (h : b.length < 2 ^ 31) :
    ZReader.read_bytes (encBytes b ++ rest) = .ok (b, rest) := by
  have hfits : fitsBE 4 (b.length : Int) := by
    apply fitsBE_ofNat
    have h4 : (256 : Nat) ^ 4 = 4294967296 := by norm_num
    omega
  unfold ZReader.read_bytes ZReader.read_i32 encBytes
  rw [List.append_assoc, readIntBE_encBE 4 (b.length : Int) (b ++ rest) hfits]
  dsimp only
  have hneg : ¬ ((b.length : Int) < 0) := by omega
  rw [if_neg hneg]
  have htn : (b.length : Int).toNat = b.length := Int.toNat_ofNat b.length
  rw [htn, if_pos (by simp [List.length_append])]
  rw [take_append_of_le b.length b rest (Nat.le_refl _),
      drop_append_of_le b.length b rest (Nat.le_refl _),
      List.take_length, List.drop_length]
  simp

theorem read_str_encStr (s : Bytes) (rest : Bytes)
    (hv : ZReader.utf8Valid s = true) (h : s.length < 2 ^ 15) :
    ZReader.read_str (encStr s ++ rest) = .ok (s, rest) := by
  have hfits : fitsBE 2 (s.length : Int) := by
    apply fitsBE_ofNat
    have h2 : (256 : Nat) ^ 2 = 65536 := by norm_num
    omega
  unfold ZReader.read_str ZReader.read_i16 encStr
  rw [List.append_assoc, readIntBE_encBE 2 (s.length : Int) (s ++ rest) hfits]
  dsimp only
  have hneg : ¬ ((s.length : Int) < 0) := by omega
  rw [if_neg hneg]
  have htn : (s.length : Int).toNat = s.length := Int.toNat_ofNat s.length
  rw [htn, if_pos (by simp [List.length_append])]
  rw [take_append_of_le s.length s rest (Nat.le_refl _),
      drop_append_of_le s.length s rest (Nat.le_refl _),
      List.take_length, List.drop_length]
  rw [if_pos hv]
  simp

theorem readIntBE_ok (k : Nat) (l : Bytes) (v : Int) (r : Bytes)
    (h : ZReader.readIntBE k l = .ok (v, r)) :
    r = l.drop k ∧ k ≤ l.length := by
  unfold ZReader.readIntBE at h
  split at h
  · next hc =>
    simp only [Except.ok.injEq, Prod.mk.injEq] at h
    exact ⟨h.2.symm, hc⟩
  · exact Except.noConfusion h

theorem read_bytes_ok_length (l : Bytes) (b r : Bytes)
    (h : ZReader.read_bytes l = .ok (b, r)) :
    r.length + 4 ≤ l.length := by
  unfold ZReader.read_bytes ZReader.read_i32 at h
  cases hi : ZReader.readIntBE 4 l with
  | error e =>
    rw [hi] at h
    exact Except.noConfusion h
  | ok p =>
    obtain ⟨n, r1⟩ := p
    obtain ⟨hr1, hlen⟩ := readIntBE_ok 4 l n r1 hi
    rw [hi] at h
    dsimp only at h
    have h2 : r1.length = l.length - 4 := by
      rw [hr1]; simp [List.length_drop]
    by_cases hn : n < 0
    · rw [if_pos hn] at h
      simp only [Except.ok.injEq, Prod.mk.injEq] at h
      have hreq : r = r1 := h.2.symm
      rw [hreq]
      omega
    · rw [if_neg hn] at h
      by_cases hle : n.toNat ≤ r1.length
      · rw [if_pos hle] at h
        simp only [Except.ok.injEq, Prod.mk.injEq] at h
        have hreq : r = r1.drop n.toNat := h.2.symm
        have h1 : r.length ≤ r1.length := by
          rw [hreq]; simp [List.length_drop]
        omega
      · rw [if_neg hle] at h
        exact Except.noConfusion h

theorem next_message_ok_length (l : Bytes) (o : Int) (pm : ProtocolMessage)
    (r : Bytes) (h : MessageSet.next_message l = .ok (o, pm, r)) :
    r.length < l.length := by
  unfold MessageSet.next_message ZReader.read_i64 at h
  cases hi : ZReader.readIntBE 8 l with
  | error e =>
    rw [hi] at h
    exact Except.noConfusion h
  | ok p =>
    obtain ⟨v, r1⟩ := p
    obtain ⟨hr1, hlen⟩ := readIntBE_ok 8 l v r1 hi
    rw [hi] at h
    dsimp only at h
    cases hb : ZReader.read_bytes r1 with
    | error e =>
      rw [hb] at h
      exact Except.noConfusion h
    | ok q =>
      obtain ⟨d, r2⟩ := q
      rw [hb] at h
      dsimp only at h
      have hblen : r2.length + 4 ≤ r1.length := read_bytes_ok_length r1 d r2 hb
      have h1 : r1.length = l.length - 8 := by
        rw [hr1]; simp [List.length_drop]
      cases hp : ProtocolMessage.from_slice d with
      | error e =>
        rw [hp] at h
        exact Except.noConfusion h
      | ok pm2 =>
        rw [hp] at h
        simp only [Except.ok.injEq, Prod.mk.injEq] at h
        have hreq : r = r2 := h.2.2.symm
        rw [hreq]
        omega

/-- One logical on-wire record, used to build well-formed message-set
buffers in the theorems below. -/
structure Rec where
  off : Int
  crc : Int
  magic : Int
  attr : Int
  key : Bytes
  value : Bytes
deriving DecidableEq, Repr

/-- All fields of the record are representable at their wire width, and
the whole record body fits a 31-bit length prefix. -/
def RecValid (x : Rec) : Prop :=
  fitsBE 8 x.off ∧ fitsBE 4 x.crc ∧ fitsBE 1 x.magic ∧ fitsBE 1 x.attr ∧
    x.key.length + x.value.length + 14 < 2 ^ 31

instance (x : Rec) : Decidable (RecValid x) := by
  unfold RecValid; infer_instance

/-- Wire encoding of the record body (the msg_body bytes: crc, magic,
attr, key, value). -/
def encRecordBody (x : Rec) : Bytes :=
  encBE 4 x.crc ++ encBE 1 x.magic ++ encBE 1 x.attr ++ encBytes x.key ++
    encBytes x.value

/-- Wire encoding of one full record: offset then the length-prefixed
body. -/
def encRecord (x : Rec) : Bytes :=
  encBE 8 x.off ++ encBytes (encRecordBody x)

/-- Wire encoding of a record sequence (a message-set block). -/
def encRecs : List Rec → Bytes
  | [] => []
  | x :: xs => encRecord x ++ encRecs xs

/-- The message a valid uncompressed record decodes to. -/
def recMsg (x : Rec) : Message := ⟨x.off, x.key, x.value⟩

/-- The protocol-level view of a record. -/
def recPM (x : Rec) : ProtocolMessage :=
  ⟨x.crc, x.magic, x.attr, x.key, x.value⟩

theorem from_slice_encRecordBody (x : Rec) (h : RecValid x) :
    ProtocolMessage.from_slice (encRecordBody x) = .ok (recPM x) := by
  obtain ⟨h8, h4, hm, ha, hkv⟩ := h
  have hk : x.key.length < 2 ^ 31 := by omega
  have hv : x.value.length < 2 ^ 31 := by omega
  unfold ProtocolMessage.from_slice encRecordBody
  unfold ZReader.read_i32 ZReader.read_i8
  rw [List.append_assoc, List.append_assoc, List.append_assoc]
  rw [readIntBE_encBE 4 x.crc _ h4]
  dsimp only
  rw [readIntBE_encBE 1 x.magic _ hm]
  dsimp only
  rw [readIntBE_encBE 1 x.attr _ ha]
  dsimp only
  rw [read_bytes_encBytes x.key _ hk]
  dsimp only
  have hval : ZReader.read_bytes (encBytes x.value) =
      ZReader.read_bytes (encBytes x.value ++ []) := by simp
  rw [hval, read_bytes_encBytes x.value [] hv]
  rfl

theorem next_message_encRecord (x : Rec) (rest : Bytes) (h : RecValid x) :
    MessageSet.next_message (encRecord x ++ rest) =
      .ok (x.off, recPM x, rest) := by
  have hbody : (encRecordBody x).length < 2 ^ 31 := by
    obtain ⟨h8, h4, hm, ha, hkv⟩ := h
    simp [encRecordBody, encBytes, List.length_append, encBE_length]
    omega
  unfold MessageSet.next_message ZReader.read_i64 encRecord
  rw [List.append_assoc, readIntBE_encBE 8 x.off _ h.1]
  dsimp only
  rw [read_bytes_encBytes _ rest hbody]
  dsimp only
  rw [from_slice_encRecordBody x h]

theorem is_empty_encRecord (x : Rec) (rest : Bytes) :
    ZReader.is_empty (encRecord x ++ rest) = false := by
  unfold ZReader.is_empty encRecord
  have hlen : (encBE 8 x.off).length = 8 := encBE_length 8 x.off
  cases hE : encBE 8 x.off with
  | nil => rw [hE] at hlen; simp at hlen
  | cons a t => simp

theorem msLoop_step (cz : Codecs) (f : Nat) (msgs : List Message)
    (x : Rec) (rest : Bytes) (h : RecValid x) :
    MessageSet.msLoop cz (f + 1) msgs (encRecord x ++ rest) =
      if x.attr.emod 4 = 0 then
        MessageSet.msLoop cz f (msgs ++ [recMsg x]) rest
      else if x.attr.emod 4 = 1 then
        match cz.gzip x.value with
        | .error e => .error e
        | .ok v => MessageSet.msLoop cz f [] v
      else if x.attr.emod 4 = 2 then
        match cz.snappy x.value with
        | .error e => .error e
        | .ok v => MessageSet.msLoop cz f [] v
      else .error .Panic := by
  conv_lhs => rw [MessageSet.msLoop]
  rw [is_empty_encRecord x rest]
  simp only [Bool.false_eq_true, if_false]
  rw [next_message_encRecord x rest h]
  dsimp only [recPM, recMsg]
  rfl

theorem msLoop_truncated (cz : Codecs) (f : Nat) (recs : List Rec)
    (tail : Bytes) (msgs : List Message)
    (hrecs : ∀ x ∈ recs, RecValid x)
    (htail : MessageSet.next_message tail = .error .UnexpectedEOF) :
    MessageSet.msLoop cz (f + recs.length + 1) msgs (encRecs recs ++ tail) =
      MessageSet.msLoop cz (f + recs.length + 1) msgs (encRecs recs) := by
  induction recs generalizing msgs with
  | nil =>
    simp only [encRecs, List.nil_append, List.length_nil, Nat.add_zero]
    cases tail with
    | nil => rfl
    | cons a t =>
      conv_lhs => rw [MessageSet.msLoop]
      conv_rhs => rw [MessageSet.msLoop]
      simp only [ZReader.is_empty, List.isEmpty, Bool.false_eq_true, if_false,
        List.isEmpty_nil, if_true]
      rw [htail]
  | cons x xs ih =>
    have hx : RecValid x := hrecs x (by simp)
    have hxs : ∀ y ∈ xs, RecValid y := fun y hy => hrecs y (by simp [hy])
    simp only [encRecs, List.length_cons, List.append_assoc]
    have hfe : f + (xs.length + 1) + 1 = (f + xs.length + 1) + 1 := by omega
    rw [hfe]
    rw [msLoop_step cz (f + xs.length + 1) msgs x (encRecs xs ++ tail) hx]
    rw [msLoop_step cz (f + xs.length + 1) msgs x (encRecs xs) hx]
    by_cases h0 : x.attr.emod 4 = 0
    · rw [if_pos h0, if_pos h0]
      exact ih (msgs ++ [recMsg x]) hxs
    · rw [if_neg h0, if_neg h0]

theorem msLoop_nocomp (cz : Codecs) (f : Nat) (recs : List Rec)
    (msgs : List Message)
    (hrecs : ∀ x ∈ recs, RecValid x ∧ x.attr.emod 4 = 0) :
    MessageSet.msLoop cz (f + recs.length + 1) msgs (encRecs recs) =
      .ok (msgs ++ recs.map recMsg) := by
  induction recs generalizing msgs with
  | nil => simp [encRecs, MessageSet.msLoop, ZReader.is_empty]
  | cons x xs ih =>
    obtain ⟨hx, h0⟩ := hrecs x (by simp)
    have hxs : ∀ y ∈ xs, RecValid y ∧ y.attr.emod 4 = 0 :=
      fun y hy => hrecs y (by simp [hy])
    simp only [encRecs, List.length_cons]
    have hfe : f + (xs.length + 1) + 1 = (f + xs.length + 1) + 1 := by omega
    rw [hfe]
    rw [msLoop_step cz (f + xs.length + 1) msgs x (encRecs xs) hx]
    rw [if_pos h0]
    rw [ih (msgs ++ [recMsg x]) hxs]
    simp

theorem msLoop_compressed (cz : Codecs) (f : Nat) (pre : List Rec)
    (x : Rec) (rest : Bytes) (msgs : List Message) (v : Bytes)
    (hpre : ∀ y ∈ pre, RecValid y ∧ y.attr.emod 4 = 0)
    (hx : RecValid x)
    (hc : (x.attr.emod 4 = 1 ∧ cz.gzip x.value = .ok v) ∨
          (x.attr.emod 4 = 2 ∧ cz.snappy x.value = .ok v)) :
    MessageSet.msLoop cz (f + pre.length + 1) msgs
        (encRecs pre ++ (encRecord x ++ rest)) =
      MessageSet.msLoop cz f [] v := by
  induction pre generalizing msgs with
  | nil =>
    simp only [encRecs, List.nil_append, List.length_nil, Nat.add_zero]
    rw [msLoop_step cz f msgs x rest hx]
    rcases hc with ⟨h1, hg⟩ | ⟨h2, hs⟩
    · rw [if_neg (by omega), if_pos h1, hg]
    · rw [if_neg (by omega), if_neg (by omega), if_pos h2, hs]
  | cons y ys ih =>
    obtain ⟨hy, h0⟩ := hpre y (by simp)
    have hys : ∀ z ∈ ys, RecValid z ∧ z.attr.emod 4 = 0 :=
      fun z hz => hpre z (by simp [hz])
    simp only [encRecs, List.length_cons, List.append_assoc]
    have hfe : f + (ys.length + 1) + 1 = (f + ys.length + 1) + 1 := by omega
    rw [hfe]
    rw [msLoop_step cz (f + ys.length + 1) msgs y
      (encRecs ys ++ (encRecord x ++ rest)) hy]
    rw [if_pos h0]
    exact ih (msgs ++ [recMsg y]) hys

theorem emitAllCore_eq :
    ∀ (rs : List FetchResponse) (ts : List TopicFetchResponse) (ct : Bytes)
      (ps : List PartitionFetchResponse),
      ResponseIter.emitAllCore rs ts ct ps =
        ps.map (fun p => ⟨ct, p.partition, p.data⟩) ++
          (topicsFlat ts ++ flatResponses rs) := by
  intro rs
  induction rs with
  | nil =>
    intro ts
    induction ts with
    | nil =>
      intro ct ps
      induction ps with
      | nil => simp [ResponseIter.emitAllCore, topicsFlat, flatResponses]
      | cons p ps ihp =>
        simp only [ResponseIter.emitAllCore]
        rw [ihp]
        simp
    | cons t ts iht =>
      intro ct ps
      induction ps with
      | nil =>
        simp only [ResponseIter.emitAllCore]
        rw [iht t.topic t.partitions]
        simp [topicsFlat]
      | cons p ps ihp =>
        simp only [ResponseIter.emitAllCore]
        rw [ihp]
        simp
  | cons r rs ihr =>
    intro ts
    induction ts with
    | nil =>
      intro ct ps
      induction ps with
      | nil =>
        simp only [ResponseIter.emitAllCore]
        rw [ihr r.topics [] []]
        simp [topicsFlat, flatResponses]
      | cons p ps ihp =>
        simp only [ResponseIter.emitAllCore]
        rw [ihp]
        simp
    | cons t ts iht =>
      intro ct ps
      induction ps with
      | nil =>
        simp only [ResponseIter.emitAllCore]
        rw [iht t.topic t.partitions]
        simp [topicsFlat]
      | cons p ps ihp =>
        simp only [ResponseIter.emitAllCore]
        rw [ihp]
        simp

theorem emitAllCore_nextCore :
    ∀ (rs : List FetchResponse) (ts : List TopicFetchResponse) (ct : Bytes)
      (ps : List PartitionFetchResponse),
      ResponseIter.emitAllCore rs ts ct ps =
        (match ResponseIter.nextCore rs ts ct ps with
         | (some x, s) =>
           x :: ResponseIter.emitAllCore s.responses s.topics s.curr_topic
             s.partitions
         | (none, _) => []) := by
  intro rs
  induction rs with
  | nil =>
    intro ts
    induction ts with
    | nil =>
      intro ct ps
      cases ps with
      | nil => simp [ResponseIter.emitAllCore, ResponseIter.nextCore]
      | cons p ps =>
        simp [ResponseIter.emitAllCore, ResponseIter.nextCore]
    | cons t ts iht =>
      intro ct ps
      cases ps with
      | nil =>
        simp only [ResponseIter.emitAllCore, ResponseIter.nextCore]
        exact iht t.topic t.partitions
      | cons p ps =>
        simp [ResponseIter.emitAllCore, ResponseIter.nextCore]
  | cons r rs ihr =>
    intro ts
    induction ts with
    | nil =>
      intro ct ps
      cases ps with
      | nil =>
        simp only [ResponseIter.emitAllCore, ResponseIter.nextCore]
        exact ihr r.topics [] []
      | cons p ps =>
        simp [ResponseIter.emitAllCore, ResponseIter.nextCore]
    | cons t ts iht =>
      intro ct ps
      cases ps with
      | nil =>
        simp only [ResponseIter.emitAllCore, ResponseIter.nextCore]
        exact iht t.topic t.partitions
      | cons p ps =>
        simp [ResponseIter.emitAllCore, ResponseIter.nextCore]

theorem nextCore_none :
    ∀ (rs : List FetchResponse) (ts : List TopicFetchResponse) (ct : Bytes)
      (ps : List PartitionFetchResponse),
      (ResponseIter.nextCore rs ts ct ps).1 = none →
      ∃ c, ResponseIter.nextCore rs ts ct ps = (none, ⟨[], [], c, []⟩) := by
  intro rs
  induction rs with
  | nil =>
    intro ts
    induction ts with
    | nil =>
      intro ct ps h
      cases ps with
      | nil => exact ⟨ct, by simp [ResponseIter.nextCore]⟩
      | cons p ps => simp [ResponseIter.nextCore] at h
    | cons t ts iht =>
      intro ct ps h
      cases ps with
      | nil =>
        simp only [ResponseIter.nextCore] at h ⊢
        exact iht t.topic t.partitions h
      | cons p ps => simp [ResponseIter.nextCore] at h
  | cons r rs ihr =>
    intro ts
    induction ts with
    | nil =>
      intro ct ps h
      cases ps with
      | nil =>
        simp only [ResponseIter.nextCore] at h ⊢
        exact ihr r.topics [] [] h
      | cons p ps => simp [ResponseIter.nextCore] at h
    | cons t ts iht =>
      intro ct ps h
      cases ps with
      | nil =>
        simp only [ResponseIter.nextCore] at h ⊢
        exact iht t.topic t.partitions h
      | cons p ps => simp [ResponseIter.nextCore] at h

/-! ### Success of a parse is stable under appending trailing bytes -/

theorem readIntBE_ext (k : Nat) (l e : Bytes) (v : Int) (r : Bytes)
    (h : ZReader.readIntBE k l = .ok (v, r)) :
    ZReader.readIntBE k (l ++ e) = .ok (v, r ++ e) := by
  unfold ZReader.readIntBE at h ⊢
  split at h
  · next hc =>
    simp only [Except.ok.injEq, Prod.mk.injEq] at h
    rw [if_pos (by simp [List.length_append]; omega)]
    rw [take_append_of_le k l e hc, drop_append_of_le k l e hc]
    rw [h.1, h.2]
  · exact Except.noConfusion h

theorem read_bytes_ext (l e : Bytes) (b r : Bytes)
    (h : ZReader.read_bytes l = .ok (b, r)) :
    ZReader.read_bytes (l ++ e) = .ok (b, r ++ e) := by
  unfold ZReader.read_bytes ZReader.read_i32 at h ⊢
  cases hi : ZReader.readIntBE 4 l with
  | error e2 =>
    rw [hi] at h
    exact Except.noConfusion h
  | ok p =>
    obtain ⟨n, r1⟩ := p
    rw [hi] at h
    rw [readIntBE_ext 4 l e n r1 hi]
    dsimp only at h ⊢
    by_cases hn : n < 0
    · rw [if_pos hn] at h ⊢
      simp only [Except.ok.injEq, Prod.mk.injEq] at h
      rw [← h.1, ← h.2]
    · rw [if_neg hn] at h ⊢
      by_cases hle : n.toNat ≤ r1.length
      · rw [if_pos hle] at h
        rw [if_pos (by simp [List.length_append]; omega)]
        rw [take_append_of_le n.toNat r1 e hle,
            drop_append_of_le n.toNat r1 e hle]
        simp only [Except.ok.injEq, Prod.mk.injEq] at h
        rw [h.1, h.2]
      · rw [if_neg hle] at h
        exact Except.noConfusion h

theorem read_str_ext (l e : Bytes) (s r : Bytes)
    (h : ZReader.read_str l = .ok (s, r)) :
    ZReader.read_str (l ++ e) = .ok (s, r ++ e) := by
  unfold ZReader.read_str ZReader.read_i16 at h ⊢
  cases hi : ZReader.readIntBE 2 l with
  | error e2 =>
    rw [hi] at h
    exact Except.noConfusion h
  | ok p =>
    obtain ⟨n, r1⟩ := p
    rw [hi] at h
    rw [readIntBE_ext 2 l e n r1 hi]
    dsimp only at h ⊢
    by_cases hn : n < 0
    · rw [if_pos hn] at h ⊢
      simp only [Except.ok.injEq, Prod.mk.injEq] at h
      rw [← h.1, ← h.2]
    · rw [if_neg hn] at h ⊢
      by_cases hle : n.toNat ≤ r1.length
      · rw [if_pos hle] at h
        rw [if_pos (by simp [List.length_append]; omega)]
        rw [take_append_of_le n.toNat r1 e hle,
            drop_append_of_le n.toNat r1 e hle]
        split at h
        · simp only [Except.ok.injEq, Prod.mk.injEq] at h
          next hu =>
            rw [if_pos hu, h.1, h.2]
        · exact Except.noConfusion h
      · rw [if_neg hle] at h
        exact Except.noConfusion h

theorem read_array_len_ext (l e : Bytes) (n : Nat) (r : Bytes)
    (h : ZReader.read_array_len l = .ok (n, r)) :
    ZReader.read_array_len (l ++ e) = .ok (n, r ++ e) := by
  unfold ZReader.read_array_len ZReader.read_i32 at h ⊢
  cases hi : ZReader.readIntBE 4 l with
  | error e2 =>
    rw [hi] at h
    exact Except.noConfusion h
  | ok p =>
    obtain ⟨m, r1⟩ := p
    rw [hi] at h
    rw [readIntBE_ext 4 l e m r1 hi]
    dsimp only at h ⊢
    split at h
    · exact Except.noConfusion h
    · simp only [Except.ok.injEq, Prod.mk.injEq] at h
      next hm =>
        rw [if_neg hm, h.1, h.2]

theorem partition_read_ext (cz : Codecs) (fuel : Nat) (l e : Bytes)
    (x : PartitionFetchResponse) (r : Bytes)
    (h : PartitionFetchResponse.read cz fuel l = .ok (x, r)) :
    PartitionFetchResponse.read cz fuel (l ++ e) = .ok (x, r ++ e) := by
  unfold PartitionFetchResponse.read at h ⊢
  unfold ZReader.read_i32 ZReader.read_i16 ZReader.read_i64 at h ⊢
  cases h1 : ZReader.readIntBE 4 l with
  | error e2 => rw [h1] at h; exact Except.noConfusion h
  | ok p1 =>
    obtain ⟨pid, r1⟩ := p1
    rw [h1] at h
    rw [readIntBE_ext 4 l e pid r1 h1]
    dsimp only at h ⊢
    cases h2 : ZReader.readIntBE 2 r1 with
    | error e2 => rw [h2] at h; exact Except.noConfusion h
    | ok p2 =>
      obtain ⟨code, r2⟩ := p2
      rw [h2] at h
      rw [readIntBE_ext 2 r1 e code r2 h2]
      dsimp only at h ⊢
      cases h3 : ZReader.readIntBE 8 r2 with
      | error e2 => rw [h3] at h; exact Except.noConfusion h
      | ok p3 =>
        obtain ⟨hw, r3⟩ := p3
        rw [h3] at h
        rw [readIntBE_ext 8 r2 e hw r3 h3]
        dsimp only at h ⊢
        cases h4 : ZReader.read_bytes r3 with
        | error e2 => rw [h4] at h; exact Except.noConfusion h
        | ok p4 =>
          obtain ⟨msb, r4⟩ := p4
          rw [h4] at h
          rw [read_bytes_ext r3 e msb r4 h4]
          dsimp only at h ⊢
          cases h5 : MessageSet.from_slice cz fuel msb with
          | error e2 => rw [h5] at h; exact Except.noConfusion h
          | ok ms =>
            rw [h5] at h
            dsimp only at h ⊢
            simp only [Except.ok.injEq, Prod.mk.injEq] at h
            rw [h.1, h.2]

theorem readArrayOf_ext {α : Type}
    (p : Bytes → Except Error (α × Bytes))
    (hp : ∀ (l e : Bytes) (x : α) (r : Bytes),
      p l = .ok (x, r) → p (l ++ e) = .ok (x, r ++ e)) :
    ∀ (n : Nat) (l e : Bytes) (xs : List α) (r : Bytes),
      readArrayOf p n l = .ok (xs, r) →
      readArrayOf p n (l ++ e) = .ok (xs, r ++ e) := by
  intro n
  induction n with
  | zero =>
    intro l e xs r h
    unfold readArrayOf at h ⊢
    simp only [Except.ok.injEq, Prod.mk.injEq] at h
    rw [h.1, h.2]
  | succ m ih =>
    intro l e xs r h
    unfold readArrayOf at h ⊢
    cases h1 : p l with
    | error e2 => rw [h1] at h; exact Except.noConfusion h
    | ok q =>
      obtain ⟨x, r1⟩ := q
      rw [h1] at h
      rw [hp l e x r1 h1]
      dsimp only at h ⊢
      cases h2 : readArrayOf p m r1 with
      | error e2 => rw [h2] at h; exact Except.noConfusion h
      | ok q2 =>
        obtain ⟨ys, r2⟩ := q2
        rw [h2] at h
        rw [ih r1 e ys r2 h2]
        dsimp only at h ⊢
        simp only [Except.ok.injEq, Prod.mk.injEq] at h
        rw [h.1, h.2]

theorem array_of_ext {α : Type}
    (p : Bytes → Except Error (α × Bytes))
    (hp : ∀ (l e : Bytes) (x : α) (r : Bytes),
      p l = .ok (x, r) → p (l ++ e) = .ok (x, r ++ e))
    (l e : Bytes) (xs : List α) (r : Bytes)
    (h : array_of p l = .ok (xs, r)) :
    array_of p (l ++ e) = .ok (xs, r ++ e) := by
  unfold array_of at h ⊢
  cases h1 : ZReader.read_array_len l with
  | error e2 => rw [h1] at h; exact Except.noConfusion h
  | ok q =>
    obtain ⟨n, r1⟩ := q
    rw [h1] at h
    rw [read_array_len_ext l e n r1 h1]
    dsimp only at h ⊢
    exact readArrayOf_ext p hp n r1 e xs r h

theorem topic_read_ext (cz : Codecs) (fuel : Nat) (l e : Bytes)
    (t : TopicFetchResponse) (r : Bytes)
    (h : TopicFetchResponse.read cz fuel l = .ok (t, r)) :
    TopicFetchResponse.read cz fuel (l ++ e) = .ok (t, r ++ e) := by
  unfold TopicFetchResponse.read at h ⊢
  cases h1 : ZReader.read_str l with
  | error e2 => rw [h1] at h; exact Except.noConfusion h
  | ok q =>
    obtain ⟨name, r1⟩ := q
    rw [h1] at h
    rw [read_str_ext l e name r1 h1]
    dsimp only at h ⊢
    cases h2 : array_of (PartitionFetchResponse.read cz fuel) r1 with
    | error e2 => rw [h2] at h; exact Except.noConfusion h
    | ok q2 =>
      obtain ⟨parts, r2⟩ := q2
      rw [h2] at h
      rw [array_of_ext (PartitionFetchResponse.read cz fuel)
        (partition_read_ext cz fuel) r1 e parts r2 h2]
      dsimp only at h ⊢
      simp only [Except.ok.injEq, Prod.mk.injEq] at h
      rw [h.1, h.2]

theorem parseFetch_ext (cz : Codecs) (fuel : Nat) (l e : Bytes)
    (resp : FetchResponse) (r : Bytes)
    (h : FetchResponse.parseFetch cz fuel l = .ok (resp, r)) :
    FetchResponse.parseFetch cz fuel (l ++ e) = .ok (resp, r ++ e) := by
  unfold FetchResponse.parseFetch at h ⊢
  unfold ZReader.read_i32 at h ⊢
  cases h1 : ZReader.readIntBE 4 l with
  | error e2 => rw [h1] at h; exact Except.noConfusion h
  | ok q =>
    obtain ⟨cid, r1⟩ := q
    rw [h1] at h
    rw [readIntBE_ext 4 l e cid r1 h1]
    dsimp only at h ⊢
    cases h2 : array_of (TopicFetchResponse.read cz fuel) r1 with
    | error e2 => rw [h2] at h; exact Except.noConfusion h
    | ok q2 =>
      obtain ⟨topics, r2⟩ := q2
      rw [h2] at h
      rw [array_of_ext (TopicFetchResponse.read cz fuel)
        (topic_read_ext cz fuel) r1 e topics r2 h2]
      dsimp only at h ⊢
      simp only [Except.ok.injEq, Prod.mk.injEq] at h
      rw [h.1, h.2]

/-! ### Characterization of the parsers on well-formed wire input -/

theorem array_of_zero {α : Type} (p : Bytes → Except Error (α × Bytes))
    (rest : Bytes) :
    array_of p (encBE 4 0 ++ rest) = .ok ([], rest) := by
  unfold array_of ZReader.read_array_len ZReader.read_i32
  rw [readIntBE_encBE 4 0 rest (by decide)]
  dsimp only
  rw [if_neg (by norm_num)]
  simp [readArrayOf]

theorem array_of_one {α : Type} (p : Bytes → Except Error (α × Bytes))
    (rest : Bytes) :
    array_of p (encBE 4 1 ++ rest) =
      (match p rest with
       | .error e => .error e
       | .ok (x, r) => .ok ([x], r)) := by
  unfold array_of ZReader.read_array_len ZReader.read_i32
  rw [readIntBE_encBE 4 1 rest (by decide)]
  dsimp only
  rw [if_neg (by norm_num)]
  have h1 : (1 : Int).toNat = 1 := rfl
  rw [h1]
  cases hp : p rest with
  | error e => simp [readArrayOf, hp]
  | ok q =>
    obtain ⟨x, r⟩ := q
    simp [readArrayOf, hp]

theorem partition_read_enc (cz : Codecs) (fuel : Nat)
    (pid ec hw : Int) (body rest : Bytes) (ms : MessageSet)
    (h4 : fitsBE 4 pid) (h2 : fitsBE 2 ec) (h8 : fitsBE 8 hw)
    (hb : body.length < 2 ^ 31)
    (hms : MessageSet.from_slice cz fuel body = .ok ms) :
    PartitionFetchResponse.read cz fuel
        (encBE 4 pid ++ (encBE 2 ec ++ (encBE 8 hw ++ (encBytes body ++ rest)))) =
      .ok (⟨pid, if ec = 0 then .ok ⟨hw, ms⟩ else .error (.Protocol ec)⟩,
        rest) := by
  unfold PartitionFetchResponse.read
  unfold ZReader.read_i32 ZReader.read_i16 ZReader.read_i64
  rw [readIntBE_encBE 4 pid _ h4]
  dsimp only
  rw [readIntBE_encBE 2 ec _ h2]
  dsimp only
  rw [readIntBE_encBE 8 hw _ h8]
  dsimp only
  rw [read_bytes_encBytes body rest hb]
  dsimp only
  rw [hms]
  dsimp only
  unfold fromProtocolError
  by_cases hec : ec = 0
  · rw [if_pos hec, if_pos hec]
  · rw [if_neg hec, if_neg hec]

theorem partition_read_enc_err (cz : Codecs) (fuel : Nat)
    (pid ec hw : Int) (body rest : Bytes) (e : Error)
    (h4 : fitsBE 4 pid) (h2 : fitsBE 2 ec) (h8 : fitsBE 8 hw)
    (hb : body.length < 2 ^ 31)
    (hms : MessageSet.from_slice cz fuel body = .error e) :
    PartitionFetchResponse.read cz fuel
        (encBE 4 pid ++ (encBE 2 ec ++ (encBE 8 hw ++ (encBytes body ++ rest)))) =
      .error e := by
  unfold PartitionFetchResponse.read
  unfold ZReader.read_i32 ZReader.read_i16 ZReader.read_i64
  rw [readIntBE_encBE 4 pid _ h4]
  dsimp only
  rw [readIntBE_encBE 2 ec _ h2]
  dsimp only
  rw [readIntBE_encBE 8 hw _ h8]
  dsimp only
  rw [read_bytes_encBytes body rest hb]
  dsimp only
  rw [hms]

theorem topic_read_zero (cz : Codecs) (fuel : Nat) (name : Bytes)
    (rest : Bytes) (hv : ZReader.utf8Valid name = true)
    (hn : name.length < 2 ^ 15) :
    TopicFetchResponse.read cz fuel (encStr name ++ (encBE 4 0 ++ rest)) =
      .ok (⟨name, []⟩, rest) := by
  unfold TopicFetchResponse.read
  rw [read_str_encStr name _ hv hn]
  dsimp only
  rw [array_of_zero]

theorem topic_read_one (cz : Codecs) (fuel : Nat) (name : Bytes)
    (pbytes : Bytes) (hv : ZReader.utf8Valid name = true)
    (hn : name.length < 2 ^ 15) :
    TopicFetchResponse.read cz fuel (encStr name ++ (encBE 4 1 ++ pbytes)) =
      (match PartitionFetchResponse.read cz fuel pbytes with
       | .error e => .error e
       | .ok (x, r) => .ok (⟨name, [x]⟩, r)) := by
  unfold TopicFetchResponse.read
  rw [read_str_encStr name _ hv hn]
  dsimp only
  rw [array_of_one]
  cases hp : PartitionFetchResponse.read cz fuel pbytes with
  | error e => rfl
  | ok q => obtain ⟨x, r⟩ := q; rfl

theorem parseFetch_zero (cz : Codecs) (fuel : Nat) (cid : Int)
    (rest : Bytes) (hc : fitsBE 4 cid) :
    FetchResponse.parseFetch cz fuel (encBE 4 cid ++ (encBE 4 0 ++ rest)) =
      .ok (⟨cid, []⟩, rest) := by
  unfold FetchResponse.parseFetch ZReader.read_i32
  rw [readIntBE_encBE 4 cid _ hc]
  dsimp only
  rw [array_of_zero]

theorem parseFetch_one (cz : Codecs) (fuel : Nat) (cid : Int)
    (tbytes : Bytes) (hc : fitsBE 4 cid) :
    FetchResponse.parseFetch cz fuel (encBE 4 cid ++ (encBE 4 1 ++ tbytes)) =
      (match TopicFetchResponse.read cz fuel tbytes with
       | .error e => .error e
       | .ok (t, r) => .ok (⟨cid, [t]⟩, r)) := by
  unfold FetchResponse.parseFetch ZReader.read_i32
  rw [readIntBE_encBE 4 cid _ hc]
  dsimp only
  rw [array_of_one]
  cases ht : TopicFetchResponse.read cz fuel tbytes with
  | error e => rfl
  | ok q => obtain ⟨t, r⟩ := q; rfl

/-- A codec pair that always fails; stands in for the external codecs in
concrete instantiations that never reach a compressed record. -/
def czNone : Codecs :=
  ⟨fun _ => .error .Decompression, fun _ => .error .Decompression⟩

/-- C1: for every list L of decoded FetchResponse values, the flat
iterator produced by iter_responses yields exactly one record per
partition, and its output sequence equals the concatenation, for each
response in L in order, for each topic in order, for each partition in
order, of the record (topic name, partition id, outcome). -/
theorem c1_iter_responses_order (rs : List FetchResponse) :
    ResponseIter.emitAll (iter_responses rs) = flatResponses rs := by
  cases rs with
  | nil =>
    unfold iter_responses ResponseIter.emitAll
    rw [emitAllCore_eq]
    simp [topicsFlat, flatResponses]
  | cons r rest =>
    cases ht : r.topics with
    | nil =>
      unfold iter_responses ResponseIter.emitAll
      dsimp only
      rw [ht]
      dsimp only
      rw [emitAllCore_eq]
      simp [topicsFlat, flatResponses, ht]
    | cons t ts =>
      unfold iter_responses ResponseIter.emitAll
      dsimp only
      rw [ht]
      dsimp only
      rw [emitAllCore_eq]
      simp [topicsFlat, flatResponses, ht]

theorem next_message_nil :
    MessageSet.next_message [] = .error .UnexpectedEOF := rfl

theorem msLoop_tail_error (cz : Codecs) (f : Nat) (recs : List Rec)
    (tail : Bytes) (e : Error) (msgs : List Message)
    (hrecs : ∀ x ∈ recs, RecValid x ∧ x.attr.emod 4 = 0)
    (htail : MessageSet.next_message tail = .error e)
    (hne : e ≠ .UnexpectedEOF) :
    MessageSet.msLoop cz (f + recs.length + 1) msgs (encRecs recs ++ tail) =
      .error e := by
  induction recs generalizing msgs with
  | nil =>
    simp only [encRecs, List.nil_append, List.length_nil, Nat.add_zero]
    cases tail with
    | nil =>
      rw [next_message_nil] at htail
      cases htail
      exact absurd rfl hne
    | cons a t =>
      conv_lhs => rw [MessageSet.msLoop]
      simp only [ZReader.is_empty, List.isEmpty, Bool.false_eq_true, if_false]
      rw [htail]
      cases e with
      | UnexpectedEOF => exact absurd rfl hne
      | InvalidData => rfl
      | Decompression => rfl
      | Protocol c => rfl
      | Panic => rfl
      | OutOfFuel => rfl
  | cons x xs ih =>
    obtain ⟨hx, h0⟩ := hrecs x (by simp)
    have hxs : ∀ y ∈ xs, RecValid y ∧ y.attr.emod 4 = 0 :=
      fun y hy => hrecs y (by simp [hy])
    simp only [encRecs, List.length_cons, List.append_assoc]
    have hfe : f + (xs.length + 1) + 1 = (f + xs.length + 1) + 1 := by omega
    rw [hfe]
    rw [msLoop_step cz (f + xs.length + 1) msgs x (encRecs xs ++ tail) hx]
    rw [if_pos h0]
    exact ih (msgs ++ [recMsg x]) hxs

/-- C2: if, after a sequence of complete records, reading the next record
of a message-set block fails with UnexpectedEOF (truncated offset, length
prefix, or body), decoding succeeds with exactly the messages accumulated
so far, and the result equals decoding the same input with the truncated
tail removed at the last record boundary; an error other than
UnexpectedEOF at that point is propagated instead. -/
theorem c2_truncation_tolerance (cz : Codecs) (f : Nat) (recs : List Rec)
    (tail : Bytes)
    (hrecs : ∀ x ∈ recs, RecValid x) :
    (MessageSet.next_message tail = .error .UnexpectedEOF →
      MessageSet.from_slice cz (f + recs.length + 1) (encRecs recs ++ tail) =
        MessageSet.from_slice cz (f + recs.length + 1) (encRecs recs) ∧
      ((∀ x ∈ recs, x.attr.emod 4 = 0) →
        MessageSet.from_slice cz (f + recs.length + 1) (encRecs recs ++ tail) =
          .ok ⟨recs.map recMsg⟩)) ∧
    (∀ e, MessageSet.next_message tail = .error e → e ≠ .UnexpectedEOF →
      (∀ x ∈ recs, x.attr.emod 4 = 0) →
      MessageSet.from_slice cz (f + recs.length + 1) (encRecs recs ++ tail) =
        .error e) := by
  constructor
  · intro htail
    have h1 := msLoop_truncated cz f recs tail [] hrecs htail
    constructor
    · unfold MessageSet.from_slice
      rw [h1]
    · intro h0
      unfold MessageSet.from_slice
      rw [h1, msLoop_nocomp cz f recs [] (fun x hx => ⟨hrecs x hx, h0 x hx⟩)]
      simp
  · intro e htail hne h0
    unfold MessageSet.from_slice
    rw [msLoop_tail_error cz f recs tail e []
      (fun x hx => ⟨hrecs x hx, h0 x hx⟩) htail hne]

/-- C2 witness: one complete record followed by a three-byte truncated
tail. -/
theorem c2_truncation_tolerance_witness :
    (MessageSet.next_message [0, 0, 0] = .error .UnexpectedEOF →
      MessageSet.from_slice czNone (0 + [(⟨1, 0, 0, 0, [7], [8]⟩ : Rec)].length + 1)
          (encRecs [⟨1, 0, 0, 0, [7], [8]⟩] ++ [0, 0, 0]) =
        MessageSet.from_slice czNone (0 + [(⟨1, 0, 0, 0, [7], [8]⟩ : Rec)].length + 1)
          (encRecs [⟨1, 0, 0, 0, [7], [8]⟩]) ∧
      ((∀ x ∈ [(⟨1, 0, 0, 0, [7], [8]⟩ : Rec)], x.attr.emod 4 = 0) →
        MessageSet.from_slice czNone (0 + [(⟨1, 0, 0, 0, [7], [8]⟩ : Rec)].length + 1)
            (encRecs [⟨1, 0, 0, 0, [7], [8]⟩] ++ [0, 0, 0]) =
          .ok ⟨[⟨1, 0, 0, 0, [7], [8]⟩].map recMsg⟩)) ∧
    (∀ e, MessageSet.next_message [0, 0, 0] = .error e →
      e ≠ .UnexpectedEOF →
      (∀ x ∈ [(⟨1, 0, 0, 0, [7], [8]⟩ : Rec)], x.attr.emod 4 = 0) →
      MessageSet.from_slice czNone (0 + [(⟨1, 0, 0, 0, [7], [8]⟩ : Rec)].length + 1)
          (encRecs [⟨1, 0, 0, 0, [7], [8]⟩] ++ [0, 0, 0]) =
        .error e) :=
  c2_truncation_tolerance czNone 0 [⟨1, 0, 0, 0, [7], [8]⟩] [0, 0, 0]
    (by decide)

/-- C3: when decoding reaches a record whose attr low two bits are 1
(GZIP) or 2 (Snappy) after a prefix of complete uncompressed records, the
decoder decompresses the value of that record, decodes the fresh buffer
via from_vec, and returns that result as the MessageSet of the whole
block: the compressed record contributes no message of its own and the
messages of the inner set stand in the result instead. -/
theorem c3_compressed_record (cz : Codecs) (f : Nat) (pre : List Rec)
    (x : Rec) (rest : Bytes) (v : Bytes)
    (hpre : ∀ y ∈ pre, RecValid y ∧ y.attr.emod 4 = 0)
    (hx : RecValid x)
    (hc : (x.attr.emod 4 = 1 ∧ cz.gzip x.value = .ok v) ∨
          (x.attr.emod 4 = 2 ∧ cz.snappy x.value = .ok v)) :
    MessageSet.from_slice cz (f + pre.length + 1)
        (encRecs pre ++ (encRecord x ++ rest)) =
      MessageSet.from_vec cz f v := by
  unfold MessageSet.from_vec MessageSet.from_slice
  rw [msLoop_compressed cz f pre x rest [] v hpre hx hc]

/-- A codec pair for the C3 witness: GZIP maps the payload 80 to the
empty inner block. -/
def czC3 : Codecs :=
  ⟨fun b => if b = [80] then .ok [] else .error .Decompression,
   fun _ => .error .Decompression⟩

/-- C3 witness: a single GZIP record whose payload decompresses to the
empty message set. -/
theorem c3_compressed_record_witness :
    MessageSet.from_slice czC3 (1 + ([] : List Rec).length + 1)
        (encRecs [] ++ (encRecord ⟨0, 0, 0, 1, [], [80]⟩ ++ [])) =
      MessageSet.from_vec czC3 1 [] :=
  c3_compressed_record czC3 1 [] ⟨0, 0, 0, 1, [], [80]⟩ [] []
    (by decide) (by decide) (by decide)

/-- C8: the flat partition iterator is terminal once exhausted: whenever
next yields no item, calling next again on the resulting state yields no
item and the same state. -/
theorem c8_iterator_terminal (s : ResponseIter)
    (h : (ResponseIter.next s).1 = none) :
    ResponseIter.next ((ResponseIter.next s).2) =
      (none, (ResponseIter.next s).2) := by
  unfold ResponseIter.next at h ⊢
  obtain ⟨c, hc⟩ :=
    nextCore_none s.responses s.topics s.curr_topic s.partitions h
  rw [hc]
  dsimp only
  simp [ResponseIter.nextCore]

/-- C8 witness: the freshly exhausted iterator over no replies. -/
theorem c8_iterator_terminal_witness :
    ResponseIter.next ((ResponseIter.next ⟨[], [], [], []⟩).2) =
      (none, (ResponseIter.next ⟨[], [], [], []⟩).2) :=
  c8_iterator_terminal ⟨[], [], [], []⟩
    (by simp [ResponseIter.next, ResponseIter.nextCore])

/-- A codec pair for C4: the outer GZIP payload 80 decompresses to a
block holding one further GZIP record with payload 81, which in turn
decompresses to one plain record with value 1. -/
def czC4a : Codecs :=
  ⟨fun b =>
    if b = [80] then .ok (encRecord ⟨0, 0, 0, 1, [], [81]⟩)
    else if b = [81] then .ok (encRecord ⟨5, 0, 0, 0, [], [1]⟩)
    else .error .Decompression,
   fun _ => .error .Decompression⟩

/-- Like czC4a but the nested payload 81 decompresses to a record with
value 2 instead. -/
def czC4b : Codecs :=
  ⟨fun b =>
    if b = [80] then .ok (encRecord ⟨0, 0, 0, 1, [], [81]⟩)
    else if b = [81] then .ok (encRecord ⟨5, 0, 0, 0, [], [2]⟩)
    else .error .Decompression,
   fun _ => .error .Decompression⟩

/-- The C4 input: one GZIP record whose decompressed payload holds a
further GZIP record. -/
def c4outer : Bytes := encRecord ⟨0, 0, 0, 1, [], [80]⟩

/-- C4 counterexample: decoding c4outer expands the nested compressed
record too: the resulting message comes from a second decompression
step, and the result changes when only the action of the codec on the
nested payload changes.  Under the claim (single-level, no re-expansion
of nested compressed records) both would be impossible. -/
theorem c4_counterexample :
    MessageSet.from_slice czC4a 3 c4outer = .ok ⟨[⟨5, [], [1]⟩]⟩ ∧
    MessageSet.from_slice czC4b 3 c4outer = .ok ⟨[⟨5, [], [2]⟩]⟩ ∧
    MessageSet.from_slice czC4a 3 c4outer ≠
      MessageSet.from_slice czC4b 3 c4outer := by
  refine ⟨by decide, by decide, by decide⟩

/-- C4 amended: decompression is recursive, not single-level.  When the
decompressed payload of a compressed record itself starts with a GZIP
record, that nested record is again decompressed and decoding restarts on
its payload, one fuel step per nesting level. -/
theorem c4_amended_recursive (cz : Codecs) (f : Nat) (x y : Rec)
    (rest1 rest2 w : Bytes)
    (hx : RecValid x) (hy : RecValid y)
    (hax : x.attr.emod 4 = 1) (hay : y.attr.emod 4 = 1)
    (hgx : cz.gzip x.value = .ok (encRecord y ++ rest2))
    (hgy : cz.gzip y.value = .ok w) :
    MessageSet.from_slice cz (f + 2) (encRecord x ++ rest1) =
      MessageSet.from_vec cz f w := by
  unfold MessageSet.from_vec MessageSet.from_slice
  have h1 : f + 2 = (f + 1) + 1 := rfl
  rw [h1, msLoop_step cz (f + 1) [] x rest1 hx]
  rw [if_neg (by omega), if_pos hax, hgx]
  dsimp only
  rw [msLoop_step cz f [] y rest2 hy]
  rw [if_neg (by omega), if_pos hay, hgy]

/-- C4 witness for the amended theorem, at the concrete two-level input
of the counterexample. -/
theorem c4_amended_recursive_witness :
    MessageSet.from_slice czC4a (1 + 2)
        (encRecord ⟨0, 0, 0, 1, [], [80]⟩ ++ []) =
      MessageSet.from_vec czC4a 1 (encRecord ⟨5, 0, 0, 0, [], [1]⟩) :=
  c4_amended_recursive czC4a 1 ⟨0, 0, 0, 1, [], [80]⟩ ⟨0, 0, 0, 1, [], [81]⟩
    [] [] (encRecord ⟨5, 0, 0, 0, [], [1]⟩)
    (by decide) (by decide) (by decide) (by decide) (by decide) (by decide)

/-- C5: a partition whose error code is non-zero still has its
error_code, high_watermark_offset and message_set_body consumed, the
cursor afterwards stands exactly at the following bytes (so every
subsequent partition and topic decodes from the same remainder as in
isolation), the outcome is the error mapped from the 16-bit code, the
partition read succeeds, and a whole reply holding that partition decodes
successfully. -/
theorem c5_error_partition_alignment (cz : Codecs) (fuel : Nat)
    (cid pid ec hw : Int) (name body rest : Bytes) (ms : MessageSet)
    (hc : fitsBE 4 cid) (h4 : fitsBE 4 pid) (h2 : fitsBE 2 ec)
    (h8 : fitsBE 8 hw) (hv : ZReader.utf8Valid name = true)
    (hn : name.length < 2 ^ 15)
    (hb : body.length < 2 ^ 31) (hec : ec ≠ 0)
    (hms : MessageSet.from_slice cz fuel body = .ok ms) :
    PartitionFetchResponse.read cz fuel
        (encBE 4 pid ++ (encBE 2 ec ++ (encBE 8 hw ++ (encBytes body ++ rest)))) =
      .ok (⟨pid, .error (.Protocol ec)⟩, rest) ∧
    FetchResponse.from_vec cz fuel
        (encBE 4 cid ++ (encBE 4 1 ++ (encStr name ++ (encBE 4 1 ++
          (encBE 4 pid ++ (encBE 2 ec ++ (encBE 8 hw ++ (encBytes body ++ rest)))))))) =
      .ok ⟨cid, [⟨name, [⟨pid, .error (.Protocol ec)⟩]⟩]⟩ := by
  have hp : PartitionFetchResponse.read cz fuel
      (encBE 4 pid ++ (encBE 2 ec ++ (encBE 8 hw ++ (encBytes body ++ rest)))) =
      .ok (⟨pid, .error (.Protocol ec)⟩, rest) := by
    rw [partition_read_enc cz fuel pid ec hw body rest ms h4 h2 h8 hb hms,
      if_neg hec]
  refine ⟨hp, ?_⟩
  unfold FetchResponse.from_vec
  rw [parseFetch_one cz fuel cid _ hc]
  rw [topic_read_one cz fuel name _ hv hn]
  rw [hp]

/-- C5 witness: partition 0 with error code 3, an empty message set and
one trailing byte standing for further content. -/
theorem c5_error_partition_alignment_witness :
    PartitionFetchResponse.read czNone 0
        (encBE 4 0 ++ (encBE 2 3 ++ (encBE 8 0 ++ (encBytes [] ++ [9])))) =
      .ok (⟨0, .error (.Protocol 3)⟩, [9]) ∧
    FetchResponse.from_vec czNone 0
        (encBE 4 1 ++ (encBE 4 1 ++ (encStr [116] ++ (encBE 4 1 ++
          (encBE 4 0 ++ (encBE 2 3 ++ (encBE 8 0 ++ (encBytes [] ++ [9])))))))) =
      .ok ⟨1, [⟨[116], [⟨0, .error (.Protocol 3)⟩]⟩]⟩ :=
  c5_error_partition_alignment czNone 0 1 0 3 0 [116] [] [9] ⟨[]⟩
    (by decide) (by decide) (by decide) (by decide) (by decide) (by decide)
    (by decide) (by decide) (by decide)

/-- The C6 input: one record whose attr low two bits are 3. -/
def c6blk : Bytes := encRecord ⟨0, 0, 0, 3, [], []⟩

/-- C6 counterexample: a record with attr low bits 3 makes from_slice hit
the panic arm (modelled as the distinct terminal outcome Panic), not the
recoverable InvalidData the claim states. -/
theorem c6_counterexample :
    MessageSet.from_slice czNone 1 c6blk = .error .Panic ∧
    MessageSet.from_slice czNone 1 c6blk ≠ .error .InvalidData := by
  refine ⟨by decide, by decide⟩

/-- C6 amended: a message-set block reaching a record with attr low two
bits equal to 3 aborts by panic (the process abort of the source,
modelled as the Panic outcome), rather than returning InvalidData. -/
theorem c6_amended_panic (cz : Codecs) (f : Nat) (x : Rec) (rest : Bytes)
    (hx : RecValid x) (ha : x.attr.emod 4 = 3) :
    MessageSet.from_slice cz (f + 1) (encRecord x ++ rest) =
      .error .Panic := by
  unfold MessageSet.from_slice
  rw [msLoop_step cz f [] x rest hx]
  rw [if_neg (by omega), if_neg (by omega), if_neg (by omega)]

/-- C6 witness for the amended theorem. -/
theorem c6_amended_panic_witness :
    MessageSet.from_slice czNone (0 + 1)
        (encRecord ⟨0, 0, 0, 3, [], []⟩ ++ []) = .error .Panic :=
  c6_amended_panic czNone 0 ⟨0, 0, 0, 3, [], []⟩ [] (by decide) (by decide)

/-- C7: empty collections decode to empty sequences without error at
every level: a reply with topic-array length 0 has no topics, a topic
with partition-array length 0 has no partitions, the empty message-set
block has no messages, and iterating no replies yields no records. -/
theorem c7_empty_collections (cz : Codecs) (fuel : Nat) (cid : Int)
    (name rest : Bytes)
    (hc : fitsBE 4 cid) (hv : ZReader.utf8Valid name = true)
    (hn : name.length < 2 ^ 15) :
    FetchResponse.parseFetch cz fuel (encBE 4 cid ++ (encBE 4 0 ++ [])) =
      .ok (⟨cid, []⟩, []) ∧
    TopicFetchResponse.read cz fuel (encStr name ++ (encBE 4 0 ++ rest)) =
      .ok (⟨name, []⟩, rest) ∧
    MessageSet.from_slice cz fuel [] = .ok ⟨[]⟩ ∧
    ResponseIter.emitAll (iter_responses []) = [] := by
  refine ⟨parseFetch_zero cz fuel cid [] hc,
    topic_read_zero cz fuel name rest hv hn, ?_, ?_⟩
  · unfold MessageSet.from_slice
    cases fuel <;> simp [MessageSet.msLoop, ZReader.is_empty]
  · unfold iter_responses ResponseIter.emitAll
    dsimp only
    rw [emitAllCore_eq]
    simp [topicsFlat, flatResponses]

/-- C7 witness at concrete inputs. -/
theorem c7_empty_collections_witness :
    FetchResponse.parseFetch czNone 0 (encBE 4 7 ++ (encBE 4 0 ++ [])) =
      .ok (⟨7, []⟩, []) ∧
    TopicFetchResponse.read czNone 0 (encStr [97] ++ (encBE 4 0 ++ [5])) =
      .ok (⟨[97], []⟩, [5]) ∧
    MessageSet.from_slice czNone 0 [] = .ok ⟨[]⟩ ∧
    ResponseIter.emitAll (iter_responses []) = [] :=
  c7_empty_collections czNone 0 7 [97] [5]
    (by decide) (by decide) (by decide)

/-- C9: even for a partition whose error code is non-zero, the
message_set_body is fully decoded; a failure there other than the
tolerated UnexpectedEOF fails the partition read, and a whole reply
containing that partition fails with the same error, although the
partition was already marked as erroring. -/
theorem c9_error_partition_body_failure (cz : Codecs) (fuel : Nat)
    (cid pid ec hw : Int) (name body : Bytes) (e : Error)
    (hc : fitsBE 4 cid) (h4 : fitsBE 4 pid) (h2 : fitsBE 2 ec)
    (h8 : fitsBE 8 hw) (hv : ZReader.utf8Valid name = true)
    (hn : name.length < 2 ^ 15) (hb : body.length < 2 ^ 31)
    (hec : ec ≠ 0)
    (hbody : MessageSet.from_slice cz fuel body = .error e) :
    PartitionFetchResponse.read cz fuel
        (encBE 4 pid ++ (encBE 2 ec ++ (encBE 8 hw ++ (encBytes body ++ [])))) =
      .error e ∧
    FetchResponse.from_vec cz fuel
        (encBE 4 cid ++ (encBE 4 1 ++ (encStr name ++ (encBE 4 1 ++
          (encBE 4 pid ++ (encBE 2 ec ++ (encBE 8 hw ++ (encBytes body ++ [])))))))) =
      .error e := by
  have hp := partition_read_enc_err cz fuel pid ec hw body [] e h4 h2 h8 hb
    hbody
  refine ⟨hp, ?_⟩
  unfold FetchResponse.from_vec
  rw [parseFetch_one cz fuel cid _ hc]
  rw [topic_read_one cz fuel name _ hv hn]
  rw [hp]

/-- C9 witness: error code 3 and a body holding a record with the
unknown codec bits, which from_slice rejects with the Panic outcome. -/
theorem c9_error_partition_body_failure_witness :
    PartitionFetchResponse.read czNone 1
        (encBE 4 0 ++ (encBE 2 3 ++ (encBE 8 0 ++
          (encBytes (encRecord ⟨0, 0, 0, 3, [], []⟩) ++ [])))) =
      .error .Panic ∧
    FetchResponse.from_vec czNone 1
        (encBE 4 9 ++ (encBE 4 1 ++ (encStr [116] ++ (encBE 4 1 ++
          (encBE 4 0 ++ (encBE 2 3 ++ (encBE 8 0 ++
            (encBytes (encRecord ⟨0, 0, 0, 3, [], []⟩) ++ [])))))))) =
      .error .Panic :=
  c9_error_partition_body_failure czNone 1 9 0 3 0 [116]
    (encRecord ⟨0, 0, 0, 3, [], []⟩) .Panic
    (by decide) (by decide) (by decide) (by decide) (by decide) (by decide)
    (by decide) (by decide) (by decide)

/-- C10: decoding a fetch reply never requires the buffer to be consumed
completely: when a buffer parses exactly (no remainder), appending any
trailing junk leaves from_vec succeeding with the identical reply. -/
theorem c10_trailing_bytes (cz : Codecs) (fuel : Nat) (b extra : Bytes)
    (resp : FetchResponse)
    (h : FetchResponse.parseFetch cz fuel b = .ok (resp, [])) :
    FetchResponse.from_vec cz fuel (b ++ extra) = .ok resp ∧
    FetchResponse.from_vec cz fuel b = .ok resp := by
  have he := parseFetch_ext cz fuel b extra resp [] h
  constructor
  · unfold FetchResponse.from_vec
    rw [he]
  · unfold FetchResponse.from_vec
    rw [h]

/-- C10 witness: a reply with zero topics followed by two junk bytes. -/
theorem c10_trailing_bytes_witness :
    FetchResponse.from_vec czNone 0 ((encBE 4 5 ++ (encBE 4 0 ++ [])) ++ [9, 9]) =
      .ok ⟨5, []⟩ ∧
    FetchResponse.from_vec czNone 0 (encBE 4 5 ++ (encBE 4 0 ++ [])) =
      .ok ⟨5, []⟩ :=
  c10_trailing_bytes czNone 0 (encBE 4 5 ++ (encBE 4 0 ++ [])) [9, 9] ⟨5, []⟩
    (by decide)
